import Mathlib

/-!
Verification development for the Food-Mapper embedding/matching subsystem
(src/app.py).  The Python source is shallowly embedded: pure fragments become
Lean functions, the network and the local model become explicit oracles,
exceptions become `Except`, floats become rationals, and the nondeterministic
completion order of concurrent batches becomes an explicit permutation
parameter.  Line numbers in doc comments refer to src/app.py.
-/

namespace FoodMapper

/-- An embedding vector (a row of the numpy matrix); float entries are
idealized as rationals. -/
abbrev Vec := List ℚ

/-! ## Batch scheduling: `_chunk_indices` (line 1324) -/

/-- Fuel-driven unfolding of `range(0, total, chunk)` paired with
`min(i + chunk, total)`.  The fuel is only a termination device: with
`0 < chunk` and `total ≤ start + fuel` it never runs out. -/
def chunkIndicesGo (total chunk : Nat) : Nat → Nat → List (Nat × Nat)
  | 0, _ => []
  | fuel + 1, start =>
    if start < total then
      (start, min (start + chunk) total) :: chunkIndicesGo total chunk fuel (start + chunk)
    else []

/-- Model of `_chunk_indices(total, chunk_size)` (line 1324):
`[(i, min(i + chunk_size, total)) for i in range(0, total, chunk_size)]`.
Python `range` rejects a zero step; the guard makes the model total. -/
def _chunk_indices (total chunk : Nat) : List (Nat × Nat) :=
  if chunk = 0 then [] else chunkIndicesGo total chunk total 0

/-- Model of the Python slice `texts[start:end]` used by every batch worker. -/
def sliceOf (texts : List α) (se : Nat × Nat) : List α :=
  (texts.drop se.1).take (se.2 - se.1)

theorem chunkIndicesGo_start_le {total chunk : Nat} :
    ∀ (fuel start : Nat) (p : Nat × Nat),
      p ∈ chunkIndicesGo total chunk fuel start → start ≤ p.1 := by
  intro fuel
  induction fuel with
  | zero => intro start p hp; simp [chunkIndicesGo] at hp
  | succ n ih =>
    intro start p hp
    by_cases h : start < total
    · simp only [chunkIndicesGo, if_pos h, List.mem_cons] at hp
      rcases hp with rfl | hp
      · exact le_rfl
      · exact le_trans (Nat.le_add_right _ _) (ih (start + chunk) p hp)
    · simp [chunkIndicesGo, if_neg h] at hp

theorem chunkIndicesGo_starts_lt {total chunk : Nat} (hc : 0 < chunk) :
    ∀ (fuel start : Nat),
      ((chunkIndicesGo total chunk fuel start).map Prod.fst).Pairwise (· < ·) := by
  intro fuel
  induction fuel with
  | zero => intro start; simp [chunkIndicesGo]
  | succ n ih =>
    intro start
    by_cases h : start < total
    · simp only [chunkIndicesGo, if_pos h, List.map_cons, List.pairwise_cons]
      refine ⟨?_, ih (start + chunk)⟩
      intro b hb
      rcases List.mem_map.1 hb with ⟨p, hp, rfl⟩
      have := @chunkIndicesGo_start_le total chunk n (start + chunk) p hp
      omega
    · simp [chunkIndicesGo, if_neg h]

theorem chunkIndicesGo_join_slices {α : Type _} (texts : List α) {chunk : Nat}
    (hc : 0 < chunk) :
    ∀ (fuel start : Nat), texts.length ≤ start + fuel →
      ((chunkIndicesGo texts.length chunk fuel start).map (sliceOf texts)).flatten
        = texts.drop start := by
  intro fuel
  induction fuel with
  | zero =>
    intro start hle
    simp only [chunkIndicesGo, List.map_nil, List.flatten_nil]
    exact (List.drop_eq_nil_of_le (by omega)).symm
  | succ n ih =>
    intro start hle
    by_cases h : start < texts.length
    · simp only [chunkIndicesGo, if_pos h, List.map_cons, List.flatten_cons]
      have hrest : ((chunkIndicesGo texts.length chunk n (start + chunk)).map
          (sliceOf texts)).flatten = texts.drop (start + chunk) := by
        apply ih
        omega
      rw [hrest]
      have hslice : sliceOf texts (start, min (start + chunk) texts.length)
          = (texts.drop start).take chunk := by
        unfold sliceOf
        rcases Nat.le_total (start + chunk) texts.length with hle2 | hle2
        · simp [Nat.min_eq_left hle2, Nat.add_sub_cancel_left]
        · have hmin : min (start + chunk) texts.length = texts.length :=
            Nat.min_eq_right hle2
          rw [hmin]
          have hlen : (texts.drop start).length = texts.length - start :=
            List.length_drop _ _
          have h1 : (texts.drop start).take (texts.length - start) = texts.drop start := by
            apply List.take_of_length_le
            omega
          have h2 : (texts.drop start).take chunk = texts.drop start := by
            apply List.take_of_length_le
            omega
          rw [h1, h2]
      rw [hslice]
      have := List.take_append_drop chunk (texts.drop start)
      rw [List.drop_drop] at this
      exact this
    · simp only [chunkIndicesGo, if_neg h]
      simp only [List.map_nil, List.flatten_nil]
      exact (List.drop_eq_nil_of_le (by omega)).symm

theorem chunk_indices_join_slices {α : Type _} (texts : List α) {chunk : Nat}
    (hc : 0 < chunk) :
    ((_chunk_indices texts.length chunk).map (sliceOf texts)).flatten = texts := by
  unfold _chunk_indices
  rw [if_neg (Nat.pos_iff_ne_zero.1 hc)]
  have := chunkIndicesGo_join_slices texts hc texts.length 0 (by omega)
  simpa using this

theorem chunk_indices_starts_lt {total chunk : Nat} (hc : 0 < chunk) :
    ((_chunk_indices total chunk).map Prod.fst).Pairwise (· < ·) := by
  unfold _chunk_indices
  rw [if_neg (Nat.pos_iff_ne_zero.1 hc)]
  exact chunkIndicesGo_starts_lt hc total 0

/-! ## Ordered fan-in: `results` dict keyed by start, assembled ascending
(lines 1344-1366 and 1379-1399) -/

/-- Model of `ordered_starts = sorted(results.keys());
np.vstack([results[s] for s in ordered_starts])`: sort the keys of the batch
result dictionary ascending and concatenate the rows.  The `getD []` default is
never reached when every batch start is a key. -/
def assembleDict (dict : List (Nat × List Vec)) : List Vec :=
  ((dict.map Prod.fst).insertionSort (· ≤ ·)).map
    (fun k => (dict.lookup k).getD []) |>.flatten

theorem lookup_eq_some_of_mem {β : Type _} :
    ∀ (dict : List (Nat × β)) (k : Nat) (v : β),
      (dict.map Prod.fst).Nodup → (k, v) ∈ dict → dict.lookup k = some v := by
  intro dict
  induction dict with
  | nil => intro k v _ hm; simp at hm
  | cons p rest ih =>
    intro k v hnd hm
    obtain ⟨k', v'⟩ := p
    simp only [List.map_cons, List.nodup_cons] at hnd
    rcases List.mem_cons.1 hm with heq | hm2
    · obtain ⟨rfl, rfl⟩ := Prod.mk.injEq .. ▸ heq
      simp [List.lookup]
    · have hne : k ≠ k' := by
        rintro rfl
        exact hnd.1 (List.mem_map.2 ⟨(k, v), hm2, rfl⟩)
      simp only [List.lookup]
      rw [show (k == k') = false from beq_eq_false_iff_ne.2 hne]
      exact ih k v hnd.2 hm2

/-- Key correctness fact for the concurrent fan-out / ordered fan-in pattern:
whatever the completion order of batches (any permutation of the chunk list),
writing each batch result keyed by its start and assembling by ascending key
yields exactly the per-text embeddings in original order. -/
theorem assembleDict_perm_eq (texts : List String) (f : String → Vec)
    {chunk : Nat} (hc : 0 < chunk) (order : List (Nat × Nat))
    (hperm : List.Perm order (_chunk_indices texts.length chunk)) :
    assembleDict (order.map (fun se => (se.1, (sliceOf texts se).map f)))
      = texts.map f := by
  set chunks := _chunk_indices texts.length chunk with hchunks
  set g : (Nat × Nat) → Nat × List Vec := fun se => (se.1, (sliceOf texts se).map f)
    with hg
  have hdictperm : List.Perm (order.map g) (chunks.map g) := hperm.map g
  have hkeys : (order.map g).map Prod.fst = order.map Prod.fst := by
    simp [hg, List.map_map, Function.comp]
  have hckeys : (chunks.map g).map Prod.fst = chunks.map Prod.fst := by
    simp [hg, List.map_map, Function.comp]
  have hkeysperm : List.Perm ((order.map g).map Prod.fst) (chunks.map Prod.fst) := by
    rw [hkeys]
    have := hperm.map Prod.fst
    exact this
  have hsortedchunks : List.Sorted (· ≤ ·) (chunks.map Prod.fst) :=
    (chunk_indices_starts_lt hc).imp (fun h => Nat.le_of_lt h)
  have hnodupchunks : (chunks.map Prod.fst).Nodup :=
    (chunk_indices_starts_lt hc).imp (fun h => Nat.ne_of_lt h)
  have hsortkeys :
      ((order.map g).map Prod.fst).insertionSort (· ≤ ·) = chunks.map Prod.fst := by
    apply List.eq_of_perm_of_sorted
      ((List.perm_insertionSort _ _).trans hkeysperm)
      (List.sorted_insertionSort _ _) hsortedchunks
  have hnodupdict : ((order.map g).map Prod.fst).Nodup :=
    (hkeysperm.nodup_iff).2 hnodupchunks
  have hlookup : ∀ se ∈ chunks, (order.map g).lookup se.1
      = some ((sliceOf texts se).map f) := by
    intro se hse
    apply lookup_eq_some_of_mem
    · exact hnodupdict
    · exact (hdictperm.mem_iff).2 (List.mem_map.2 ⟨se, hse, rfl⟩)
  unfold assembleDict
  rw [hsortkeys, List.map_map]
  have hmapeq : chunks.map ((fun k => ((order.map g).lookup k).getD []) ∘ Prod.fst)
      = chunks.map (fun se => (sliceOf texts se).map f) := by
    apply List.map_congr_left
    intro se hse
    simp [Function.comp, hlookup se hse]
  rw [hmapeq]
  have : chunks.map (fun se => (sliceOf texts se).map f)
      = (chunks.map (sliceOf texts)).map (List.map f) := by
    simp [List.map_map, Function.comp]
  rw [this, ← List.map_flatten, chunk_indices_join_slices texts hc]

/-! ## Remote backend: `compute_embeddings_deepinfra` (lines 1271-1293) and
`compute_embeddings_deepinfra_async` (lines 1295-1322).

The network is an oracle `Nat → Except String (List Vec)` mapping the attempt
number of one request to the `response.data` rows the API would deliver
(`.ok`) or to the message of the exception the client would raise (`.error`).
Extraction `[data.embedding for data in response.data]` is the identity on the
modelled rows. -/

/-- Backoff before the next attempt: `min(4.0, 0.25 * (2 ** attempt))`
(line 1319). -/
def backoffDelay (attempt : Nat) : ℚ := min 4 ((1 / 4) * 2 ^ attempt)

/-- The retry loop of the async backend (lines 1303-1319): up to `fuel`
attempts starting at attempt index `k`; returns the result, the number of
calls issued, and the list of sleeps performed.  `lastErr` mirrors the
`last_err` variable. -/
def asyncLoop (oracle : Nat → Except String (List Vec)) :
    Nat → Nat → String → Except String (List Vec) × Nat × List ℚ
  | 0, _, lastErr => (.error ("DeepInfra API error after retries: " ++ lastErr), 0, [])
  | fuel + 1, k, _ =>
    match oracle k with
    | .ok v => (.ok v, 1, [])
    | .error e =>
      let r := asyncLoop oracle fuel (k + 1) e
      (r.1, r.2.1 + 1, backoffDelay k :: r.2.2)

/-- Model of `compute_embeddings_deepinfra_async` (lines 1295-1322): the retry
loop under the outer exception wrapper (line 1321-1322), which also rewraps
the post-loop `after retries` exception. -/
def compute_embeddings_deepinfra_async (oracle : Nat → Except String (List Vec)) :
    Except String (List Vec) × Nat × List ℚ :=
  let r := asyncLoop oracle 5 0 "None"
  match r.1 with
  | .ok v => (.ok v, r.2)
  | .error e => (.error ("DeepInfra API error: " ++ e), r.2)

/-- The value the API client returns for one request. -/
structure ApiResponse where
  data : List Vec
deriving DecidableEq

/-- The Python value bound to `response` in the sync backend: either the
response object itself or a tuple of responses.  Line 1281-1286 ends in a
trailing comma, so the source builds the one-element tuple. -/
inductive SyncRespVal
  | resp (r : ApiResponse)
  | tup (elems : List ApiResponse)
deriving DecidableEq

/-- Attribute access `response.data` (line 1289): succeeds on a response
object, raises AttributeError on a tuple. -/
def respData : SyncRespVal → Except String (List Vec)
  | .resp r => .ok r.data
  | .tup _ => .error "tuple object has no attribute data"

/-- Model of the synchronous `compute_embeddings_deepinfra` (lines 1271-1293).
It issues exactly one API call; the trailing comma on line 1286 wraps the
response in a one-element tuple before `.data` is read; any exception is
re-raised as `DeepInfra API error: ...` (line 1293).  Second component:
number of API calls issued. -/
def compute_embeddings_deepinfra (oracle : Nat → Except String (List Vec)) :
    Except String (List Vec) × Nat :=
  match oracle 0 with
  | .error e => (.error ("DeepInfra API error: " ++ e), 1)
  | .ok d =>
    let response := SyncRespVal.tup [⟨d⟩]
    match respData response with
    | .ok d2 => (.ok d2, 1)
    | .error e => (.error ("DeepInfra API error: " ++ e), 1)

/-- `asyncio.gather` / `as_completed` collection of batch results in completion
order: the first raising batch propagates its error, otherwise all keyed
results are collected. -/
def collectBatches : List (Nat × Except String (List Vec)) →
    Except String (List (Nat × List Vec))
  | [] => .ok []
  | (s, .ok v) :: rest => (collectBatches rest).map (fun d => (s, v) :: d)
  | (_, .error e) :: _ => .error e

/-- Model of `compute_embeddings_parallel` (lines 1332-1366): empty input
short-circuits to an empty matrix; otherwise every chunk is embedded through
the synchronous backend, results are keyed by start in completion order
`order`, and assembled ascending.  `oracle texts k` is the network outcome of
attempt `k` of the request for `texts`; `max_concurrency` only bounds
in-flight batches and cannot affect the value. -/
def compute_embeddings_parallel (oracle : List String → Nat → Except String (List Vec))
    (texts : List String) (batch_size max_concurrency : Nat)
    (order : List (Nat × Nat)) : Except String (List Vec) :=
  if texts.length = 0 then .ok []
  else
    match collectBatches (order.map
        (fun se => (se.1, (compute_embeddings_deepinfra (oracle (sliceOf texts se))).1))) with
    | .error e => .error e
    | .ok dict => .ok (assembleDict dict)

/-- Model of `compute_embeddings_parallel_async` (lines 1368-1399): same
shape, with the asynchronous backend per chunk. -/
def compute_embeddings_parallel_async
    (oracle : List String → Nat → Except String (List Vec))
    (texts : List String) (batch_size max_concurrency : Nat)
    (order : List (Nat × Nat)) : Except String (List Vec) :=
  if texts.length = 0 then .ok []
  else
    match collectBatches (order.map
        (fun se => (se.1, (compute_embeddings_deepinfra_async (oracle (sliceOf texts se))).1))) with
    | .error e => .error e
    | .ok dict => .ok (assembleDict dict)

theorem deepinfra_async_first_ok {oracle : Nat → Except String (List Vec)}
    {v : List Vec} (h : oracle 0 = .ok v) :
    compute_embeddings_deepinfra_async oracle = (.ok v, 1, []) := by
  unfold compute_embeddings_deepinfra_async asyncLoop
  rw [h]

theorem collectBatches_all_ok {γ : Type _} (l : List γ)
    (key : γ → Nat) (val : γ → List Vec) :
    collectBatches (l.map (fun p => (key p, Except.ok (val p))))
      = .ok (l.map (fun p => (key p, val p))) := by
  induction l with
  | nil => rfl
  | cons p rest ih => simp [collectBatches, ih, Except.map]

/-! ## Concrete oracles used to settle the backend claims -/

/-- A per-text fingerprint embedding (the length of the string). -/
def demoEmbed (s : String) : Vec := [(s.length : ℚ)]

/-- A healthy API: every attempt of every request answers with one vector per
input string, order-aligned. -/
def oracleHealthy : List String → Nat → Except String (List Vec) :=
  fun ts _ => .ok (ts.map demoEmbed)

/-- A transiently failing API: the first attempt raises, every later attempt
succeeds. -/
def oracleFlaky : Nat → Except String (List Vec) :=
  fun k => if k = 0 then .error "boom" else .ok [[1]]

theorem asyncLoop_ok_at (oracle : Nat → Except String (List Vec))
    (es : Nat → String) (v : List Vec) :
    ∀ (j fuel k : Nat) (le : String), j < fuel →
      (∀ i, i < j → oracle (k + i) = .error (es (k + i))) →
      oracle (k + j) = .ok v →
      asyncLoop oracle fuel k le
        = (.ok v, j + 1, (List.range j).map (fun i => backoffDelay (k + i))) := by
  intro j
  induction j with
  | zero =>
    intro fuel k le hfuel _ hok
    obtain ⟨fuel', rfl⟩ : ∃ fuel', fuel = fuel' + 1 := by
      cases fuel with
      | zero => omega
      | succ n => exact ⟨n, rfl⟩
    simp only [asyncLoop]
    rw [show k + 0 = k from rfl] at hok
    rw [hok]
    simp
  | succ j ih =>
    intro fuel k le hfuel herr hok
    obtain ⟨fuel', rfl⟩ : ∃ fuel', fuel = fuel' + 1 := by
      cases fuel with
      | zero => omega
      | succ n => exact ⟨n, rfl⟩
    have h0 : oracle k = .error (es k) := by
      have := herr 0 (by omega)
      simpa using this
    simp only [asyncLoop, h0]
    have hrec : asyncLoop oracle fuel' (k + 1) (es k)
        = (.ok v, j + 1, (List.range j).map (fun i => backoffDelay (k + 1 + i))) := by
      apply ih fuel' (k + 1) (es k) (by omega)
      · intro i hi
        have := herr (i + 1) (by omega)
        rw [show k + (i + 1) = k + 1 + i by omega] at this
        exact this
      · rw [show k + 1 + j = k + (j + 1) by omega]
        exact hok
    rw [hrec]
    refine Prod.ext rfl (Prod.ext rfl ?_)
    simp only [List.range_succ_eq_map, List.map_cons, List.map_map]
    refine congrArg₂ _ (by rw [Nat.add_zero]) ?_
    apply List.map_congr_left
    intro i _
    simp [Function.comp]
    ring_nf

/-- C1: the batch scheduler property.  First conjunct: the synchronous
scheduler `compute_embeddings_parallel` never returns a matrix on non-empty
input: its backend unconditionally raises (the line 1286 trailing comma), so
the claimed row-count property fails on the failing input `["a"]`.  Second
conjunct: `compute_embeddings_parallel_async` satisfies the claim: for every
text list, every `batch_size ≥ 1`, every `max_concurrency`, a backend that
embeds each text by `f`, and EVERY completion order of the batches (any
permutation of the chunk list), the assembled matrix is exactly
`texts.map f`, whose row count is the input length. -/
theorem claim_C1 :
    (compute_embeddings_parallel oracleHealthy ["a"] 1 1 (_chunk_indices 1 1)
      = .error "DeepInfra API error: tuple object has no attribute data")
    ∧ (∀ (texts : List String) (f : String → Vec)
        (oracle : List String → Nat → Except String (List Vec))
        (bs mc : Nat) (order : List (Nat × Nat)),
        0 < bs → (∀ ts, oracle ts 0 = .ok (ts.map f)) →
        List.Perm order (_chunk_indices texts.length bs) →
        compute_embeddings_parallel_async oracle texts bs mc order = .ok (texts.map f)
          ∧ (texts.map f).length = texts.length) := by
  constructor
  · rfl
  · intro texts f oracle bs mc order hbs horacle hperm
    refine ⟨?_, by simp⟩
    unfold compute_embeddings_parallel_async
    by_cases h0 : texts.length = 0
    · rw [if_pos h0]
      have : texts = [] := List.length_eq_zero.1 h0
      subst this
      rfl
    · rw [if_neg h0]
      have hentry : order.map
          (fun se => (se.1, (compute_embeddings_deepinfra_async (oracle (sliceOf texts se))).1))
          = order.map (fun se => (se.1, Except.ok ((sliceOf texts se).map f))) := by
        apply List.map_congr_left
        intro se _
        rw [deepinfra_async_first_ok (horacle (sliceOf texts se))]
      rw [hentry]
      rw [collectBatches_all_ok order (fun se => se.1) (fun se => (sliceOf texts se).map f)]
      simp only []
      rw [assembleDict_perm_eq texts f hbs order hperm]

/-- Witness for C1: three texts, batch size 2, the two batches completing in
reversed order; the assembled matrix is still the per-text embedding in
original order. -/
theorem claim_C1_witness :
    (0 : Nat) < 2
    ∧ compute_embeddings_parallel_async oracleHealthy ["a", "b", "cd"] 2 7 [(2, 3), (0, 2)]
        = .ok (["a", "b", "cd"].map demoEmbed) := by
  refine ⟨by decide, ?_⟩
  exact (claim_C1.2 ["a", "b", "cd"] demoEmbed oracleHealthy 2 7 [(2, 3), (0, 2)]
    (by decide) (fun ts => rfl) (by decide)).1

/-- C5 counterexample: a transient failure on the first attempt.  The
synchronous backend performs no retry: it issues exactly one call and
surfaces the failure, even though the asynchronous backend recovers from the
same oracle on its second attempt after a 0.25s backoff.  This refutes the
claim that both variants retry with backoff. -/
theorem claim_C5_counterexample :
    compute_embeddings_deepinfra oracleFlaky = (.error "DeepInfra API error: boom", 1)
    ∧ compute_embeddings_deepinfra_async oracleFlaky = (.ok [[1]], 2, [1 / 4]) := by
  constructor
  · rfl
  · have h := asyncLoop_ok_at oracleFlaky (fun _ => "boom") [[1]] 1 5 0 "None"
      (by omega) (by intro i hi; interval_cases i; rfl) rfl
    unfold compute_embeddings_deepinfra_async
    rw [h]
    simp [backoffDelay, List.range_succ]
    norm_num

/-- C5 amended: only the asynchronous remote call retries.  (a) the
synchronous backend issues exactly one API call for every oracle; (b) when
all five async attempts fail, the call sleeps the capped exponential backoff
sequence 0.25s, 0.5s, 1s, 2s, 4s and surfaces a reported error carrying the
last failure; (c) when attempt `j < 5` is the first to succeed, the async
call returns its vectors after `j + 1` calls and the first `j` backoff
sleeps. -/
theorem claim_C5 :
    ∀ (oracle : Nat → Except String (List Vec)) (es : Nat → String)
      (v : List Vec) (j : Nat),
      (compute_embeddings_deepinfra oracle).2 = 1
      ∧ compute_embeddings_deepinfra_async (fun k => .error (es k))
          = (.error ("DeepInfra API error: "
              ++ ("DeepInfra API error after retries: " ++ es 4)), 5,
             [1 / 4, 1 / 2, 1, 2, 4])
      ∧ (j < 5 → (∀ i, i < j → oracle i = .error (es i)) → oracle j = .ok v →
          compute_embeddings_deepinfra_async oracle
            = (.ok v, j + 1, (List.range j).map backoffDelay)) := by
  intro oracle es v j
  refine ⟨?_, ?_, ?_⟩
  · cases h : oracle 0 <;> simp [compute_embeddings_deepinfra, h, respData]
  · unfold compute_embeddings_deepinfra_async
    simp only [asyncLoop]
    norm_num [backoffDelay]
  · intro hj herr hok
    have h := asyncLoop_ok_at oracle es v j 5 0 "None" hj
      (by intro i hi; simpa using herr i hi) (by simpa using hok)
    unfold compute_embeddings_deepinfra_async
    rw [h]
    simp

/-- Witness for C5 amended: the flaky oracle; the async call succeeds on the
second attempt after one 0.25s sleep, the sync call has issued exactly one
call. -/
theorem claim_C5_witness :
    (compute_embeddings_deepinfra oracleFlaky).2 = 1
    ∧ compute_embeddings_deepinfra_async oracleFlaky
        = (.ok [[1]], 2, (List.range 1).map backoffDelay) := by
  have h := claim_C5 oracleFlaky (fun _ => "boom") [[1]] 1
  exact ⟨h.1, h.2.2 (by omega) (by intro i hi; interval_cases i; rfl) rfl⟩

/-- C6: the remote backends.  First conjunct: the synchronous backend raises
on every call, healthy API included: line 1286 ends in a trailing comma, so
`response` is a one-element tuple and `response.data` raises AttributeError,
re-raised as a DeepInfra API error — the failing input `["a"]` never gets its
1-row matrix.  Second conjunct: the asynchronous backend, given a response
honoring the interface contract (one vector per input string, order-aligned),
returns exactly those vectors: one row per input string. -/
theorem claim_C6 :
    (compute_embeddings_deepinfra (oracleHealthy ["a"])
      = (.error "DeepInfra API error: tuple object has no attribute data", 1))
    ∧ (∀ (texts : List String) (f : String → Vec)
        (oracle : Nat → Except String (List Vec)),
        oracle 0 = .ok (texts.map f) →
        (compute_embeddings_deepinfra_async oracle).1 = .ok (texts.map f)
          ∧ (texts.map f).length = texts.length) := by
  refine ⟨rfl, ?_⟩
  intro texts f oracle h
  rw [deepinfra_async_first_ok h]
  simp

/-- Witness for C6: a healthy two-string request to the async backend. -/
theorem claim_C6_witness :
    (compute_embeddings_deepinfra_async (fun _ => .ok (["a", "b"].map demoEmbed))).1
        = .ok (["a", "b"].map demoEmbed)
    ∧ (["a", "b"].map demoEmbed).length = (["a", "b"] : List String).length :=
  claim_C6.2 ["a", "b"] demoEmbed (fun _ => .ok (["a", "b"].map demoEmbed)) rfl

/-! ## Resilience controller: `compute_embeddings_resilient_async`
(lines 1470-1531) and the run-start re-arm in `run_matching`
(lines 3429-3432). -/

/-- The process-wide resilience state: `_API_FAILURES` and `FALLBACK_ACTIVE`
(lines 1220-1221). -/
structure RState where
  apiFailures : Nat
  fallbackActive : Bool
deriving DecidableEq

/-- `MODEL_FALLBACK_MODE` (line 1217): `auto`, `api`, `local` or `off`. -/
inductive Mode
  | auto
  | api
  | localM
  | off
deriving DecidableEq

/-- Which backend served (or was attempted for) a request. -/
inductive Backend
  | remote
  | localB
deriving DecidableEq

/-- Model of one call to `compute_embeddings_resilient_async`
(lines 1470-1531).  `threshold` is `API_MAX_FAILURES` (default 3, line 1216);
`apiOutcome` is what `_try_api_embeddings` would deliver for this request
(value or raised error, timeout included); `localVecs` is the local CPU
result.  Returns the call result, the successor state, and the backends
attempted in order. -/
def compute_embeddings_resilient (threshold : Nat) (mode : Mode) (st : RState)
    (apiOutcome : Except String (List Vec)) (localVecs : List Vec) :
    Except String (List Vec) × RState × List Backend :=
  match mode with
  | .localM => (.ok localVecs, { st with fallbackActive := true }, [.localB])
  | .api => (apiOutcome, { st with fallbackActive := false }, [.remote])
  | .off => (apiOutcome, { st with fallbackActive := false }, [.remote])
  | .auto =>
    if st.fallbackActive then
      (.ok localVecs, st, [.localB])
    else
      match apiOutcome with
      | .ok v => (.ok v, ⟨0, false⟩, [.remote])
      | .error e =>
        if threshold ≤ st.apiFailures + 1 then
          (.ok localVecs, ⟨st.apiFailures + 1, true⟩, [.remote, .localB])
        else
          (.error e, ⟨st.apiFailures + 1, st.fallbackActive⟩, [.remote])

/-- A whole run at fixed mode: thread state through a list of requests, each
given as its API outcome paired with its local result; collect per-request
backend lists. -/
def resilientRun (threshold : Nat) (mode : Mode) :
    RState → List (Except String (List Vec) × List Vec) → RState × List (List Backend)
  | st, [] => (st, [])
  | st, (apiOutcome, localVecs) :: rest =>
    let step := compute_embeddings_resilient threshold mode st apiOutcome localVecs
    let tail := resilientRun threshold mode step.2.1 rest
    (tail.1, step.2.2 :: tail.2)

/-- C2: auto mode, fallback not yet active (lines 1505-1531).  The request
first attempts the remote backend.  Success resets the consecutive-failure
counter to 0.  Failure increments it; if the incremented counter has reached
the threshold, the fallback flag is set and this same request is served by
the local backend; below the threshold the error propagates unconsumed and
the fallback flag is unchanged. -/
theorem claim_C2 :
    ∀ (threshold : Nat) (st : RState) (apiOutcome : Except String (List Vec))
      (localVecs : List Vec),
      st.fallbackActive = false →
      (compute_embeddings_resilient threshold .auto st apiOutcome localVecs).2.2.head?
          = some .remote
      ∧ (∀ v, apiOutcome = .ok v →
          compute_embeddings_resilient threshold .auto st apiOutcome localVecs
            = (.ok v, ⟨0, false⟩, [.remote]))
      ∧ (∀ e, apiOutcome = .error e →
          (compute_embeddings_resilient threshold .auto st apiOutcome
              localVecs).2.1.apiFailures = st.apiFailures + 1
          ∧ (threshold ≤ st.apiFailures + 1 →
              compute_embeddings_resilient threshold .auto st apiOutcome localVecs
                = (.ok localVecs, ⟨st.apiFailures + 1, true⟩, [.remote, .localB]))
          ∧ (st.apiFailures + 1 < threshold →
              compute_embeddings_resilient threshold .auto st apiOutcome localVecs
                = (.error e, ⟨st.apiFailures + 1, false⟩, [.remote]))) := by
  intro threshold st apiOutcome localVecs hfb
  refine ⟨?_, ?_, ?_⟩
  · cases apiOutcome with
    | ok v => simp [compute_embeddings_resilient, hfb]
    | error e =>
      by_cases h : threshold ≤ st.apiFailures + 1 <;>
        simp [compute_embeddings_resilient, hfb, h]
  · rintro v rfl
    simp [compute_embeddings_resilient, hfb]
  · rintro e rfl
    refine ⟨?_, ?_, ?_⟩
    · by_cases h : threshold ≤ st.apiFailures + 1 <;>
        simp [compute_embeddings_resilient, hfb, h]
    · intro h
      simp [compute_embeddings_resilient, hfb, h]
    · intro h
      simp [compute_embeddings_resilient, hfb, Nat.not_le.2 h]

/-- Witness for C2 at the default threshold 3: two prior failures, a third
failing request trips the breaker and is served locally; a fresh state with a
succeeding request resets the counter; one prior failure with a failing
request propagates the error. -/
theorem claim_C2_witness :
    compute_embeddings_resilient 3 .auto ⟨2, false⟩ (.error "boom") [[5]]
      = (.ok [[5]], ⟨3, true⟩, [.remote, .localB])
    ∧ compute_embeddings_resilient 3 .auto ⟨2, false⟩ (.ok [[7]]) [[5]]
      = (.ok [[7]], ⟨0, false⟩, [.remote])
    ∧ compute_embeddings_resilient 3 .auto ⟨0, false⟩ (.error "boom") [[5]]
      = (.error "boom", ⟨1, false⟩, [.remote]) := by
  refine ⟨?_, ?_, ?_⟩
  · exact ((claim_C2 3 ⟨2, false⟩ (.error "boom") [[5]] rfl).2.2 "boom" rfl).2.1 (by decide)
  · exact (claim_C2 3 ⟨2, false⟩ (.ok [[7]]) [[5]] rfl).2.1 [[7]] rfl
  · exact ((claim_C2 3 ⟨0, false⟩ (.error "boom") [[5]] rfl).2.2 "boom" rfl).2.2 (by decide)

/-- C3: once the fallback flag is true, every subsequent request of the run
under auto mode is served by the local backend alone — the remote backend is
never attempted, and the flag stays true for the rest of the run even when
the API outcome of a request would have been a success. -/
theorem claim_C3 :
    ∀ (threshold : Nat) (st : RState)
      (reqs : List (Except String (List Vec) × List Vec)),
      st.fallbackActive = true →
      (resilientRun threshold .auto st reqs).1.fallbackActive = true
      ∧ ∀ bks ∈ (resilientRun threshold .auto st reqs).2, bks = [.localB] := by
  intro threshold st reqs
  induction reqs generalizing st with
  | nil => intro hfb; exact ⟨hfb, by simp [resilientRun]⟩
  | cons req rest ih =>
    intro hfb
    obtain ⟨apiOutcome, localVecs⟩ := req
    have hstep : compute_embeddings_resilient threshold .auto st apiOutcome localVecs
        = (.ok localVecs, st, [.localB]) := by
      simp [compute_embeddings_resilient, hfb]
    constructor
    · simp only [resilientRun, hstep]
      exact (ih st hfb).1
    · intro bks hbks
      simp only [resilientRun, hstep, List.mem_cons] at hbks
      rcases hbks with rfl | hbks
      · rfl
      · exact (ih st hfb).2 bks hbks

/-- Witness for C3: with the breaker open, two requests — the first of which
would have succeeded remotely — are both served locally and the flag stays
true. -/
theorem claim_C3_witness :
    (resilientRun 3 .auto ⟨3, true⟩ [(.ok [[7]], [[5]]), (.error "boom", [[6]])]).1.fallbackActive
        = true
    ∧ ∀ bks ∈ (resilientRun 3 .auto ⟨3, true⟩
        [(.ok [[7]], [[5]]), (.error "boom", [[6]])]).2, bks = [.localB] :=
  claim_C3 3 ⟨3, true⟩ [(.ok [[7]], [[5]]), (.error "boom", [[6]])] rfl

/-- The run-start re-arm (lines 3429-3432): `_API_FAILURES = 0;
FALLBACK_ACTIVE = False`, whatever the previous state. -/
def resetCircuit (_prev : RState) : RState := ⟨0, false⟩

/-- Events on the control path of `run_matching` between the re-arm and the
dispatch of the embedding run. -/
inductive RunEvent
  | resetEv
  | dispatchEv
deriving DecidableEq

/-- Control-flow skeleton of `run_matching` from line 3429 to the embedding
dispatch (lines 3525-3542): first the circuit re-arm, then the forced-local
adjustment of line 3492 when the mode is `local`, then the dispatch of
`run_embed_match(_async)`.  Each event is paired with the state after it. -/
def run_matching_trace (mode : Mode) (prev : RState) : List (RunEvent × RState) :=
  [(.resetEv, resetCircuit prev),
   (.dispatchEv,
     if mode = .localM then { resetCircuit prev with fallbackActive := true }
     else resetCircuit prev)]

/-- C4: starting a new matching run sets the failure counter to 0 and the
fallback flag to false, and this reset is the first event of the run — it
precedes the embedding dispatch — independent of the previous state of the
circuit.  (In forced-local mode the flag is afterwards raised again, before
dispatch, by line 3492; in every other mode the dispatch still sees the
re-armed state.) -/
theorem claim_C4 :
    ∀ (mode : Mode) (prev prev2 : RState),
      run_matching_trace mode prev
        = [(.resetEv, ⟨0, false⟩),
           (.dispatchEv, if mode = .localM then ⟨0, true⟩ else ⟨0, false⟩)]
      ∧ run_matching_trace mode prev = run_matching_trace mode prev2 := by
  intro mode prev prev2
  constructor
  · cases mode <;> rfl
  · rfl

/-! ## Target deduplication and label reporting:
`target_list_unique = list(dict.fromkeys(target_list))` (line 3461) and the
worker label selection `target_list[int(np.argmax(row))]` (lines 1724-1726). -/

/-- `dict.fromkeys` insertion with an accumulator of already seen keys:
a key already present keeps its first position, a new key is appended. -/
def dictFromKeysAux (seen : List String) : List String → List String
  | [] => []
  | x :: xs =>
    if x ∈ seen then dictFromKeysAux seen xs
    else x :: dictFromKeysAux (x :: seen) xs

/-- Model of `list(dict.fromkeys(target_list))` (line 3461): the target list
with duplicates removed, first occurrences kept in order.  This is the list
whose embeddings are computed (it is passed as the target list of
`run_embed_match_async`, line 3528, and embedded once at line 1698). -/
def target_list_unique (l : List String) : List String := dictFromKeysAux [] l

theorem mem_dictFromKeysAux :
    ∀ (l seen : List String) (x : String),
      x ∈ dictFromKeysAux seen l ↔ x ∈ l ∧ x ∉ seen := by
  intro l
  induction l with
  | nil => intro seen x; simp [dictFromKeysAux]
  | cons y ys ih =>
    intro seen x
    by_cases hy : y ∈ seen
    · rw [dictFromKeysAux, if_pos hy, ih]
      constructor
      · rintro ⟨hx, hns⟩
        exact ⟨List.mem_cons_of_mem _ hx, hns⟩
      · rintro ⟨hx, hns⟩
        rcases List.mem_cons.1 hx with rfl | hx
        · exact absurd hy hns
        · exact ⟨hx, hns⟩
    · rw [dictFromKeysAux, if_neg hy]
      constructor
      · intro hx
        rcases List.mem_cons.1 hx with rfl | hx
        · exact ⟨List.mem_cons_self _ _, hy⟩
        · rw [ih] at hx
          refine ⟨List.mem_cons_of_mem _ hx.1, ?_⟩
          intro hs
          exact hx.2 (List.mem_cons_of_mem _ hs)
      · rintro ⟨hx, hns⟩
        rcases List.mem_cons.1 hx with rfl | hx
        · exact List.mem_cons_self _ _
        · by_cases hxy : x = y
          · subst hxy; exact List.mem_cons_self _ _
          · refine List.mem_cons_of_mem _ ?_
            rw [ih]
            refine ⟨hx, ?_⟩
            intro hs
            rcases List.mem_cons.1 hs with h | h
            · exact hxy h
            · exact hns h

theorem nodup_dictFromKeysAux :
    ∀ (l seen : List String), (dictFromKeysAux seen l).Nodup := by
  intro l
  induction l with
  | nil => intro seen; simp [dictFromKeysAux]
  | cons y ys ih =>
    intro seen
    by_cases hy : y ∈ seen
    · rw [dictFromKeysAux, if_pos hy]; exact ih seen
    · rw [dictFromKeysAux, if_neg hy]
      refine List.nodup_cons.2 ⟨?_, ih (y :: seen)⟩
      intro hmem
      exact ((mem_dictFromKeysAux ys (y :: seen) y).1 hmem).2 (List.mem_cons_self _ _)

theorem sublist_dictFromKeysAux :
    ∀ (l seen : List String), List.Sublist (dictFromKeysAux seen l) l := by
  intro l
  induction l with
  | nil => intro seen; simp [dictFromKeysAux]
  | cons y ys ih =>
    intro seen
    by_cases hy : y ∈ seen
    · rw [dictFromKeysAux, if_pos hy]
      exact (ih seen).trans (List.sublist_cons_self _ _)
    · rw [dictFromKeysAux, if_neg hy]
      exact List.Sublist.cons₂ y (ih (y :: seen))

theorem take_dictFromKeysAux_append :
    ∀ (l seen : List String) (n : Nat),
      ∃ t, dictFromKeysAux seen (l.take n) ++ t = dictFromKeysAux seen l := by
  intro l
  induction l with
  | nil => intro seen n; exact ⟨[], by simp [dictFromKeysAux]⟩
  | cons y ys ih =>
    intro seen n
    cases n with
    | zero => exact ⟨dictFromKeysAux seen (y :: ys), by simp [dictFromKeysAux]⟩
    | succ m =>
      by_cases hy : y ∈ seen
      · simpa [dictFromKeysAux, hy] using ih seen m
      · obtain ⟨t, ht⟩ := ih (y :: seen) m
        exact ⟨t, by simp [dictFromKeysAux, hy, ht]⟩

/-- Model of `int(np.argmax(row))`: the first index attaining the maximum of
the row; 0 on an empty row. -/
def np_argmaxAux : List ℚ → Nat → Nat → ℚ → Nat
  | [], _, best, _ => best
  | v :: rest, i, best, bv =>
    if bv < v then np_argmaxAux rest (i + 1) i v
    else np_argmaxAux rest (i + 1) best bv

def np_argmax : List ℚ → Nat
  | [] => 0
  | v :: rest => np_argmaxAux rest 1 0 v

theorem np_argmaxAux_lt :
    ∀ (rest : List ℚ) (i best : Nat) (bv : ℚ), best < i →
      np_argmaxAux rest i best bv < i + rest.length := by
  intro rest
  induction rest with
  | nil => intro i best bv h; simpa [np_argmaxAux] using h
  | cons v vs ih =>
    intro i best bv h
    rw [np_argmaxAux]
    by_cases hv : bv < v
    · rw [if_pos hv]
      have := ih (i + 1) i v (by omega)
      simpa [Nat.add_comm, Nat.add_assoc, Nat.add_left_comm] using this
    · rw [if_neg hv]
      have := ih (i + 1) best bv (by omega)
      simpa [Nat.add_comm, Nat.add_assoc, Nat.add_left_comm] using this

theorem np_argmax_lt_length (row : List ℚ) (h : row ≠ []) :
    np_argmax row < row.length := by
  cases row with
  | nil => exact absurd rfl h
  | cons v rest =>
    rw [np_argmax]
    have := np_argmaxAux_lt rest 1 0 v (by omega)
    simpa [Nat.add_comm] using this

/-- The label a batch worker reports for a similarity row (lines 1725-1726):
the string of the (deduplicated) target list at the argmax index. -/
def reportedLabel (targets : List String) (row : List ℚ) : String :=
  (target_list_unique targets).getD (np_argmax row) ""

/-- C8: the target list is deduplicated before target embeddings are
computed.  (i) each distinct target string occurs exactly once in the
embedded list (count 1 when present, 0 otherwise); (ii) the deduplicated list
is a subsequence of the original, so the kept occurrences appear in
first-seen order; (iii) deduplication is prefix-monotone: the dedup of any
prefix is a prefix of the dedup, so an element's position is determined by
its first occurrence; (iv) for a similarity row as wide as the deduplicated
list, the reported match label is the string at the argmax target index and
belongs to the caller-visible target label space. -/
theorem claim_C8 :
    ∀ (targets : List String) (x : String) (n : Nat) (row : List ℚ),
      ((target_list_unique targets).count x = if x ∈ targets then 1 else 0)
      ∧ List.Sublist (target_list_unique targets) targets
      ∧ (∃ t, target_list_unique (targets.take n) ++ t = target_list_unique targets)
      ∧ (row.length = (target_list_unique targets).length → row ≠ [] →
          reportedLabel targets row
              = (target_list_unique targets).getD (np_argmax row) ""
          ∧ reportedLabel targets row ∈ targets) := by
  intro targets x n row
  refine ⟨?_, ?_, ?_, ?_⟩
  · by_cases hx : x ∈ targets
    · rw [if_pos hx]
      apply List.count_eq_one_of_mem (nodup_dictFromKeysAux targets [])
      rw [mem_dictFromKeysAux]
      exact ⟨hx, by simp⟩
    · rw [if_neg hx]
      rw [List.count_eq_zero]
      intro hmem
      exact hx ((mem_dictFromKeysAux targets [] x).1 hmem).1
  · exact sublist_dictFromKeysAux targets []
  · exact take_dictFromKeysAux_append targets [] n
  · intro hlen hrow
    refine ⟨rfl, ?_⟩
    have hidx : np_argmax row < (target_list_unique targets).length := by
      rw [← hlen]
      exact np_argmax_lt_length row hrow
    have hget : reportedLabel targets row
        = (target_list_unique targets).get ⟨np_argmax row, hidx⟩ := by
      unfold reportedLabel
      exact List.getD_eq_get _ _ hidx
    rw [hget]
    have hmem : (target_list_unique targets).get ⟨np_argmax row, hidx⟩
        ∈ target_list_unique targets := List.get_mem _ _ hidx
    exact ((mem_dictFromKeysAux targets [] _).1 hmem).1

/-- Witness for C8: the target list `x, x, y` from the testable properties —
two unique strings embedded, a 2-wide similarity row favoring the second, the
reported label `y` drawn from the original list. -/
theorem claim_C8_witness :
    ((target_list_unique ["x", "x", "y"]).count "x" = if "x" ∈ (["x", "x", "y"] : List String) then 1 else 0)
    ∧ ((2 : ℚ) :: [5]).length = (target_list_unique ["x", "x", "y"]).length
    ∧ reportedLabel ["x", "x", "y"] ((2 : ℚ) :: [5]) ∈ (["x", "x", "y"] : List String) := by
  have h := claim_C8 ["x", "x", "y"] "x" 2 ((2 : ℚ) :: [5])
  refine ⟨h.1, by decide, (h.2.2.2 (by decide) (by decide)).2⟩

/-! ## Result classification in `run_matching` (lines 3557-3572): scores are
rounded to 4 decimals in place, then the status column is computed from the
rounded `similarity_score`; a missing (NaN) score is modelled as `none`. -/

/-- Round-half-to-even on a rational (the rounding numpy and pandas use for
`.round`); exact decimal idealization of the float operation. -/
def roundHalfEven (q : ℚ) : ℤ :=
  if q - ⌊q⌋ < 1 / 2 then ⌊q⌋
  else if 1 / 2 < q - ⌊q⌋ then ⌊q⌋ + 1
  else if ⌊q⌋ % 2 = 0 then ⌊q⌋ else ⌊q⌋ + 1

/-- Model of `results[col].round(4)` (line 3560) on one score. -/
def pandas_round4 (q : ℚ) : ℚ := (roundHalfEven (q * 10000) : ℚ) / 10000

/-- The status value of one result row. -/
inductive Status
  | isMatch
  | noMatch
deriving DecidableEq

/-- Model of the status lambda (line 3571):
`'NO MATCH' if (pd.notna(s) and float(s) < float(threshold)) else 'Match'`,
where `s` is the stored (already rounded) similarity score and `none` stands
for NaN. -/
def matchStatus (threshold : ℚ) : Option ℚ → Status
  | some s => if s < threshold then .noMatch else .isMatch
  | none => .isMatch

/-- One row of the result table: the stored similarity score and its status. -/
structure MatchRow where
  score : Option ℚ
  status : Status
deriving DecidableEq

/-- Model of lines 3557-3572 for the per-row fields the claims are about:
the raw cosine scores are rounded to 4 decimals in place, then the status is
computed from the rounded score. -/
def buildRows (threshold : ℚ) (rawScores : List (Option ℚ)) : List MatchRow :=
  rawScores.map (fun raw =>
    let stored := raw.map pandas_round4
    ⟨stored, matchStatus threshold stored⟩)

/-- C7: for every produced match result carrying a score, the status is
NoMatch iff its (stored) similarity score is strictly below the threshold,
and a score exactly equal to the threshold is classified Match: the threshold
is an inclusive lower bound for Match. -/
theorem claim_C7 :
    ∀ (threshold : ℚ) (rawScores : List (Option ℚ)) (row : MatchRow),
      row ∈ buildRows threshold rawScores →
      ∀ s, row.score = some s →
        (row.status = .noMatch ↔ s < threshold)
        ∧ (s = threshold → row.status = .isMatch) := by
  intro threshold rawScores row hrow s hs
  obtain ⟨raw, _, rfl⟩ := List.mem_map.1 hrow
  cases raw with
  | none => simp at hs
  | some q =>
    simp only [Option.map_some] at hs
    have hq : s = pandas_round4 q := by
      simpa using hs.symm
    subst hq
    constructor
    · simp only [matchStatus]
      by_cases h : pandas_round4 q < threshold
      · simp [h]
      · simp [h]
    · intro heq
      simp [matchStatus, heq]

/-- Witness for C7: raw score 0.75 against threshold 0.75 — stored score
equals the threshold, classified Match; and the iff holds on that row. -/
theorem claim_C7_witness :
    ((⟨some (3 / 4), .isMatch⟩ : MatchRow) ∈ buildRows (3 / 4) [some (3 / 4)])
    ∧ (((⟨some (3 / 4), .isMatch⟩ : MatchRow).status = .noMatch ↔ (3 / 4 : ℚ) < 3 / 4)
        ∧ ((3 / 4 : ℚ) = 3 / 4 → (⟨some (3 / 4), .isMatch⟩ : MatchRow).status = .isMatch)) := by
  have hr : pandas_round4 (3 / 4) = 3 / 4 := by
    norm_num [pandas_round4, roundHalfEven]
  have hmem : (⟨some (3 / 4), .isMatch⟩ : MatchRow) ∈ buildRows (3 / 4) [some (3 / 4)] := by
    simp [buildRows, matchStatus, hr]
  exact ⟨hmem, claim_C7 (3 / 4) [some (3 / 4)] ⟨some (3 / 4), .isMatch⟩ hmem (3 / 4) rfl⟩

/-- C10: the status of every row is computed from the similarity score only
after rounding to 4 decimal places: the produced row stores the rounded score
and its status compares the rounded value against the threshold, so a raw
score strictly below the threshold whose rounding reaches the threshold is
classified Match; and a missing (NaN) score produces status Match, not
NoMatch. -/
theorem claim_C10 :
    ∀ (threshold raw : ℚ),
      buildRows threshold [some raw, none]
        = [⟨some (pandas_round4 raw),
             if pandas_round4 raw < threshold then .noMatch else .isMatch⟩,
           ⟨none, .isMatch⟩]
      ∧ (raw < threshold → ¬ pandas_round4 raw < threshold →
          matchStatus threshold (some (pandas_round4 raw)) = .isMatch) := by
  intro threshold raw
  constructor
  · simp [buildRows, matchStatus]
  · intro _ hge
    simp [matchStatus, hge]

/-- Witness for C10: threshold 0.85, raw score 0.84996 — strictly below the
threshold, but its 4-decimal rounding is exactly 0.85, so the row is
classified Match; and the NaN row of the same build is Match. -/
theorem claim_C10_witness :
    ((21249 / 25000 : ℚ) < 17 / 20 ∧ ¬ pandas_round4 (21249 / 25000) < 17 / 20)
    ∧ matchStatus (17 / 20) (some (pandas_round4 (21249 / 25000))) = .isMatch
    ∧ buildRows (17 / 20) [some (21249 / 25000), none]
        = [⟨some (pandas_round4 (21249 / 25000)),
             if pandas_round4 (21249 / 25000) < 17 / 20 then .noMatch else .isMatch⟩,
           ⟨none, .isMatch⟩] := by
  have h := claim_C10 (17 / 20) (21249 / 25000)
  have h1 : (21249 / 25000 : ℚ) < 17 / 20 := by norm_num
  have h2 : ¬ pandas_round4 (21249 / 25000) < 17 / 20 := by
    norm_num [pandas_round4, roundHalfEven]
  exact ⟨⟨h1, h2⟩, h.2 h1 h2, h.1⟩

/-! ## Shared-state concurrency under the asyncio event loop.

Code between two `await` points runs atomically on the event loop; an `await`
is a suspension point where any other task may run.  `_load_local_model`
(lines 1402-1424) checks the `_LOCAL_ST_MODEL` cache, then `await`s the model
constructor in a thread, then writes the cache — check and write are in
different atomic segments.  The `except` branch of
`compute_embeddings_resilient_async` (lines 1511-1529) — increment, threshold
test, notification — contains no `await` before the notification, so it is
one atomic segment. -/

/-- Program counter of one task inside `_load_local_model`: about to execute
the cache check (line 1404), suspended in `await asyncio.to_thread(...)`
(line 1423), or finished. -/
inductive LoadPC
  | start
  | loading
  | done
deriving DecidableEq

/-- Global state for the lazy-initialization model: the `_LOCAL_ST_MODEL`
cache (loaded or not), the number of times the model constructor has been
invoked, and the program counter of each task. -/
structure LoadState where
  modelLoaded : Bool
  loads : Nat
  pcs : List LoadPC
deriving DecidableEq

/-- One atomic segment of task `i`.  From `start`: if the cache is filled the
task returns it (lines 1404-1405); otherwise it starts the constructor and
suspends (line 1423), which is where the invocation count grows.  From
`loading`: the task resumes and writes the cache (line 1424). -/
def loadStep (s : LoadState) (i : Nat) : LoadState :=
  match s.pcs.getD i .done with
  | .start =>
    if s.modelLoaded then { s with pcs := s.pcs.set i .done }
    else { s with pcs := s.pcs.set i .loading, loads := s.loads + 1 }
  | .loading => { s with pcs := s.pcs.set i .done, modelLoaded := true }
  | .done => s

/-- Run a schedule: the event loop picks which task runs each atomic
segment. -/
def runSched : LoadState → List Nat → LoadState
  | s, [] => s
  | s, i :: rest => runSched (loadStep s i) rest

/-- State mutated by the `except` branch of the resilient wrapper, plus a
count of how many times the fallback notification has been shown
(line 1518). -/
structure CBState where
  failures : Nat
  fallbackActive : Bool
  notifications : Nat
deriving DecidableEq

/-- One failing request executing the atomic `except` segment
(lines 1511-1529): increment the counter; at or beyond the threshold set the
flag and show the notification. -/
def failSegment (threshold : Nat) (s : CBState) : CBState :=
  if threshold ≤ s.failures + 1 then
    ⟨s.failures + 1, true, s.notifications + 1⟩
  else
    ⟨s.failures + 1, s.fallbackActive, s.notifications⟩

/-- `n` in-flight failing requests, already past the line-1499 fallback
check, executing their `except` segments in sequence. -/
def failSegments (threshold : Nat) : CBState → Nat → CBState
  | s, 0 => s
  | s, n + 1 => failSegments threshold (failSegment threshold s) n

/-- C9 counterexample: the code has no critical section.  (i) Lazy
initialization is not single-entry: two tasks that both execute the cache
check before either finishes its load (schedule task 0 check, task 1 check)
each trigger the model constructor — two loads instead of one.  (ii) The
fallback notification is not unique: with threshold 3, four in-flight failing
requests show the notification twice. -/
theorem claim_C9_counterexample :
    (runSched ⟨false, 0, [.start, .start]⟩ [0, 1]).loads = 2
    ∧ (failSegments 3 ⟨0, false, 0⟩ 4).notifications = 2 := by
  constructor
  · rfl
  · rfl

/-- C9 amended: what the event loop does guarantee.  (i) Against re-entry
after initialization: once the model cache is filled, no schedule of any
number of tasks ever invokes the constructor again.  (ii) Against lost
updates: the increments of the failure counter are single atomic segments, so
`n` failing requests grow the counter by exactly `n`, whatever their
interleaving with each other. -/
theorem claim_C9 :
    ∀ (loads0 : Nat) (pcs : List LoadPC) (sched : List Nat)
      (threshold : Nat) (s : CBState) (n : Nat),
      (runSched ⟨true, loads0, pcs⟩ sched).loads = loads0
      ∧ (failSegments threshold s n).failures = s.failures + n := by
  have hload : ∀ (sched : List Nat) (loads0 : Nat) (pcs : List LoadPC),
      (runSched ⟨true, loads0, pcs⟩ sched).loads = loads0 := by
    intro sched
    induction sched with
    | nil => intro loads0 pcs; rfl
    | cons i rest ih =>
      intro loads0 pcs
      show (runSched (loadStep ⟨true, loads0, pcs⟩ i) rest).loads = loads0
      have hstep : loadStep ⟨true, loads0, pcs⟩ i
          = ⟨true, loads0, (loadStep ⟨true, loads0, pcs⟩ i).pcs⟩ := by
        unfold loadStep
        cases hpc : pcs.getD i LoadPC.done <;> simp [hpc]
      rw [hstep]
      exact ih loads0 _
  have hfail : ∀ (n : Nat) (threshold : Nat) (s : CBState),
      (failSegments threshold s n).failures = s.failures + n := by
    intro n
    induction n with
    | zero => intro threshold s; rfl
    | succ m ih =>
      intro threshold s
      show (failSegments threshold (failSegment threshold s) m).failures = s.failures + (m + 1)
      rw [ih]
      unfold failSegment
      by_cases h : threshold ≤ s.failures + 1 <;> simp [h] <;> omega
  intro loads0 pcs sched threshold s n
  exact ⟨hload sched loads0 pcs, hfail n threshold s⟩

end FoodMapper
